import Mathlib

/-!
Verification of the codebox-api execution engine against its specification.

The definitions below are a shallow embedding of the Python sources:
strings are `List Char`, byte strings are `List Nat`, the session
filesystem is an association list from absolute paths to byte strings,
and fallible operations return `Except PyErr`.
-/

/-- Chunk type tag, `t.Literal["txt", "img", "err"]` from `types.py`. -/
inductive CType where
  | txt
  | img
  | err
deriving DecidableEq

instance : Fintype CType :=
  ⟨{CType.txt, CType.img, CType.err}, by intro x; cases x <;> decide⟩

/-- The three-letter tag of a chunk type. -/
def tagChars : CType → List Char
  | CType.txt => ['t', 'x', 't']
  | CType.img => ['i', 'm', 'g']
  | CType.err => ['e', 'r', 'r']

/-- Opening wire tag, e.g. `<txt>`. -/
def openTag (t : CType) : List Char := '<' :: (tagChars t ++ ['>'])

/-- Closing wire tag, e.g. `</txt>`. -/
def closeTag (t : CType) : List Char := '<' :: '/' :: (tagChars t ++ ['>'])

/-- `ExecChunk` from `types.py`: a typed unit of execution output. -/
structure ExecChunk where
  type : CType
  content : List Char
deriving DecidableEq

/-- Encoder from `api.py` exec event stream:
`yield f"<{chunk.type}>{chunk.content}</{chunk.type}>"`. -/
def encodeFrame (c : ExecChunk) : List Char :=
  openTag c.type ++ c.content ++ closeTag c.type

/-- Concatenation of all frames of a chunk sequence (the full HTTP body). -/
def encodeStream (cs : List ExecChunk) : List Char :=
  (cs.map encodeFrame).flatten

/-- Scan for the first occurrence of `close` (the lazy `(.*?)` semantics of
the decoder regex in `remote.py`): returns the text before the first
occurrence and the text after it. -/
def findClose (close : List Char) : List Char → Option (List Char × List Char)
  | [] => if close.isPrefixOf ([] : List Char) then some ([], []) else none
  | c :: rest =>
    if close.isPrefixOf (c :: rest) then some ([], (c :: rest).drop close.length)
    else
      match findClose close rest with
      | none => none
      | some (p, r) => some (c :: p, r)

/-- One alternation branch of `re.match("<(txt|img|err)>(.*?)</\\1>", buffer, re.DOTALL)`
from `RemoteBox.stream_exec`: the buffer must start with `<t>` and contain the
matching close tag; the lazy group takes the text up to its first occurrence. -/
def tryTag (t : CType) (buf : List Char) : Option (ExecChunk × List Char) :=
  if (openTag t).isPrefixOf buf then
    match findClose (closeTag t) (buf.drop (openTag t).length) with
    | none => none
    | some (content, rest) => some (⟨t, content⟩, rest)
  else none

/-- The anchored regex match of the decoder, trying the alternation
`txt`, `img`, `err` in order. -/
def matchFrame (buf : List Char) : Option (ExecChunk × List Char) :=
  match tryTag CType.txt buf with
  | some r => some r
  | none =>
    match tryTag CType.img buf with
    | some r => some r
    | none => tryTag CType.err buf

/-- The decoder's inner `while match := re.match(...)` loop: repeatedly pop a
complete frame off the front of the buffer.  Fuel-indexed for executability;
each popped frame consumes at least one character, so `buf.length` fuel
always suffices. -/
def drainFuel : Nat → List Char → List ExecChunk × List Char
  | 0, buf => ([], buf)
  | fuel + 1, buf =>
    match matchFrame buf with
    | none => ([], buf)
    | some (c, rest) =>
      let p := drainFuel fuel rest
      (c :: p.1, p.2)

/-- Pop all complete frames off the front of the buffer. -/
def drainBuffer (buf : List Char) : List ExecChunk × List Char :=
  drainFuel buf.length buf

/-- Process one HTTP chunk: `buffer += chunk` then the inner match loop
(`RemoteBox.stream_exec` / `astream_exec`). -/
def feedPiece (st : List ExecChunk × List Char) (piece : List Char) :
    List ExecChunk × List Char :=
  let d := drainBuffer (st.2 ++ piece)
  (st.1 ++ d.1, d.2)

/-- The whole streaming decoder: start with an empty buffer, feed each HTTP
chunk in turn, collect the emitted `ExecChunk`s. -/
def decodeStream (pieces : List (List Char)) : List ExecChunk :=
  (pieces.foldl feedPiece ([], [])).1

/-- A content string that contains none of the six frame tags. -/
def cleanContent (s : List Char) : Prop :=
  ∀ t : CType, ¬ openTag t <:+: s ∧ ¬ closeTag t <:+: s

instance (s : List Char) : Decidable (cleanContent s) := by
  unfold cleanContent; infer_instance

/-- A chunk whose content contains none of the frame tags. -/
def cleanChunk (c : ExecChunk) : Prop := cleanContent c.content

instance (c : ExecChunk) : Decidable (cleanChunk c) := by
  unfold cleanChunk; infer_instance


/-- Residual decoder buffer: empty, or a strict prefix of the next frame. -/
def residualBuf (b : List Char) (cs : List ExecChunk) : Prop :=
  b = [] ∨ ∃ c cs2, cs = c :: cs2 ∧ b <+: encodeFrame c ∧ b ≠ encodeFrame c

-- ### ExecResult (types.py) and the scripted helpers (codebox.py)

/-- `ExecResult` from `types.py`: a list of chunks with three derived views. -/
structure ExecResult where
  chunks : List ExecChunk
deriving DecidableEq

/-- `ExecResult.text`: the concatenated contents of the `txt` chunks, in order. -/
def ExecResult.text (r : ExecResult) : List Char :=
  ((r.chunks.filter (fun c => c.type == CType.txt)).map ExecChunk.content).flatten

/-- `ExecResult.images`: the contents of the `img` chunks, in order. -/
def ExecResult.images (r : ExecResult) : List (List Char) :=
  (r.chunks.filter (fun c => c.type == CType.img)).map ExecChunk.content

/-- `ExecResult.errors`: the contents of the `err` chunks, in order. -/
def ExecResult.errors (r : ExecResult) : List (List Char) :=
  (r.chunks.filter (fun c => c.type == CType.err)).map ExecChunk.content

/-- Python substring test `p in s` on strings, as a boolean scan. -/
def hasInfix : List Char → List Char → Bool
  | [], p => p.isEmpty
  | c :: rest, p => p.isPrefixOf (c :: rest) || hasInfix rest p

/-- `CodeBox.ahealthcheck`: "healthy" if "ok" occurs in the text view of
`exec("echo ok", kernel="bash")`, else "error".  The exec result is the
abstract parameter. -/
def ahealthcheck (r : ExecResult) : List Char :=
  if hasInfix r.text "ok".toList then "healthy".toList else "error".toList

-- ### Session filesystem model (local.py file operations)

/-- A `RemoteFile` descriptor (`types.py`): we track the `path` attribute;
the back reference to the owning session is irrelevant to the claims. -/
structure RemoteFile where
  path : List Char
deriving DecidableEq

/-- The session-visible filesystem: an association list from absolute path
to byte content; a write shadows previous entries (like `open(path, "wb")`). -/
abbrev FileSystem := List (List Char × List Nat)

def fsWrite (fs : FileSystem) (p : List Char) (content : List Nat) : FileSystem :=
  (p, content) :: fs

def fsRead : FileSystem → List Char → Option (List Nat)
  | [], _ => none
  | (q, c) :: rest, p => if q = p then some c else fsRead rest p

/-- Python `os.path.join(a, b)` for the shapes that occur here: an absolute
second argument replaces the first; otherwise a slash is inserted (the cwd is
an `os.path.abspath` result, which does not end in a slash). -/
def osPathJoin (a b : List Char) : List Char :=
  if b.head? = some '/' then b else a ++ '/' :: b

/-- Python exception kinds that the modelled operations can raise. -/
inductive PyErr where
  | timeoutError (msg : List Char)
  | fileNotFoundError
  | indexError
deriving DecidableEq

/-- `LocalBox.upload`: write the content at `os.path.join(cwd, name)` with no
validation of `name`, and return `RemoteFile(path=remote_file_path)`. -/
def upload (fs : FileSystem) (cwd name : List Char) (content : List Nat) :
    FileSystem × RemoteFile :=
  (fsWrite fs (osPathJoin cwd name) content, ⟨name⟩)

/-- `LocalBox.aupload`: same write, but returns `RemoteFile(path=file_path)`
where `file_path = os.path.join(self.cwd, file_name)`. -/
def aupload (fs : FileSystem) (cwd name : List Char) (content : List Nat) :
    FileSystem × RemoteFile :=
  (fsWrite fs (osPathJoin cwd name) content, ⟨osPathJoin cwd name⟩)

/-- The `while chunk := f.read(8192)` loop of `LocalBox.stream_download`,
fuel-indexed for executability (`b.length` fuel always suffices). -/
def chunksFuel : Nat → List Nat → List (List Nat)
  | 0, _ => []
  | f + 1, b => if b.isEmpty then [] else b.take 8192 :: chunksFuel f (b.drop 8192)

/-- Split a byte string into the 8192-byte read chunks. -/
def chunks8192 (b : List Nat) : List (List Nat) := chunksFuel b.length b

/-- `LocalBox.stream_download`: open `os.path.join(cwd, name)` (raising
`FileNotFoundError` when absent) and yield 8192-byte chunks. -/
def stream_download (fs : FileSystem) (cwd name : List Char) :
    Except PyErr (List (List Nat)) :=
  match fsRead fs (osPathJoin cwd name) with
  | none => Except.error PyErr.fileNotFoundError
  | some b => Except.ok (chunks8192 b)

/-- `CodeBox.adownload`: `[f for f in (await self.alist_files()) if f.path in
remote_file_path][0]` over the given listing; indexing an empty list raises
`IndexError`. -/
def adownload (files : List RemoteFile) (name : List Char) : Except PyErr RemoteFile :=
  match files.filter (fun f => hasInfix name f.path) with
  | [] => Except.error PyErr.indexError
  | f :: _ => Except.ok f

-- ### Path resolution (for confinement analysis)

/-- Split a path at slashes. -/
def splitSlash : List Char → List (List Char)
  | [] => [[]]
  | c :: rest =>
    if c = '/' then [] :: splitSlash rest
    else
      match splitSlash rest with
      | [] => [[c]]
      | s :: ss => (c :: s) :: ss

/-- Resolve `.` and `..` segments the way the kernel resolves an absolute
path: `..` pops the last segment, `.` and empty segments vanish. -/
def resolveSegs (segs : List (List Char)) : List (List Char) :=
  segs.foldl
    (fun acc seg =>
      if seg = ['.', '.'] then acc.dropLast
      else if seg = [] ∨ seg = ['.'] then acc
      else acc ++ [seg])
    []

/-- Canonical segment list of an absolute path. -/
def resolvePath (p : List Char) : List (List Char) := resolveSegs (splitSlash p)

/-- The resolved path lies under the resolved cwd. -/
def underCwd (cwd p : List Char) : Prop := resolvePath cwd <+: resolvePath p

instance (cwd p : List Char) : Decidable (underCwd cwd p) := by
  unfold underCwd; infer_instance

-- ### LocalBox construction (local.py __new__)

/-- The message of the RuntimeError raised by `LocalBox.__new__` when an
instance already exists. -/
def localBoxErrMsg : List Char :=
  ("Only one LocalBox instance can exist at a time.\n"
    ++ "For parallel execution use:\n"
    ++ "- Use DockerBox for local parallel execution\n"
    ++ "- Get an API key at https://codeboxapi.com for secure remote execution").toList

/-- `LocalBox.__new__`: the process-wide `_instance` slot is the state; a
second construction raises, a first one creates and registers the instance. -/
def localBoxNew (inst : Option Nat) (fresh : Nat) :
    Except (List Char) (Nat × Option Nat) :=
  match inst with
  | some _ => Except.error localBoxErrMsg
  | none => Except.ok (fresh, some fresh)

-- ### Timeout behaviour of LocalBox.stream_exec (utils.raise_timeout)

/-- The message of the TimeoutError raised by `utils.raise_timeout`. -/
def timeoutMsg : List Char := "Execution timed out".toList

/-- Outcome of `LocalBox.stream_exec` under `with raise_timeout(timeout)`:
the consumer sees a list of yielded chunks and an optional terminal
exception.  The SIGALRM alarm (`signal.alarm(int(timeout))`) fires iff a
finite nonzero timeout is set and the cell runs longer; the cell itself is
abstracted by its planned chunks, its duration, and how many chunks the
generator has yielded when the alarm fires.  There is no handler in
`stream_exec` converting the `TimeoutError` into a chunk. -/
def stream_exec (timeout : Option Nat) (duration : Nat) (cell : List ExecChunk)
    (yielded : Nat) : List ExecChunk × Option PyErr :=
  match timeout with
  | none => (cell, none)
  | some t =>
    if 0 < t ∧ t < duration then
      (cell.take yielded, some (PyErr.timeoutError timeoutMsg))
    else (cell, none)

-- ### CodeBox._parse_size (codebox.py)

/-- Bridge between the boolean prefix test and the prefix relation. -/
lemma isPre_iff (l₁ l₂ : List Char) : l₁.isPrefixOf l₂ = true ↔ l₁ <+: l₂ := by
  exact List.isPrefixOf_iff_prefix

-- ### Basic facts about the wire tags

lemma openTag_length (t : CType) : (openTag t).length = 5 := by
  cases t <;> rfl

lemma closeTag_length (t : CType) : (closeTag t).length = 6 := by
  cases t <;> rfl

lemma closeTag_ne_nil (t : CType) : closeTag t ≠ [] := by
  cases t <;> decide

lemma openTag_inj {t1 t2 : CType} (h : openTag t1 = openTag t2) : t1 = t2 := by
  revert h; cases t1 <;> cases t2 <;> decide

/-- None of the closing tags has a nontrivial border: no proper nonempty
suffix of `</txt>` (resp. `</img>`, `</err>`) is also a prefix of it. -/
lemma closeTag_no_border (t : CType) (k : Nat) (h1 : 0 < k) (h2 : k < 6) :
    (closeTag t).drop k ≠ (closeTag t).take (6 - k) := by
  cases t <;> interval_cases k <;> decide

-- ### findClose: first-occurrence search for the closing tag

lemma findClose_nil_of_ne (close : List Char) (h : close ≠ []) :
    findClose close [] = none := by
  have : close.isPrefixOf ([] : List Char) = false := by
    cases close with
    | nil => exact absurd rfl h
    | cons c l => rfl
  simp [findClose, this]

lemma findClose_cons (close : List Char) (c : Char) (rest : List Char) :
    findClose close (c :: rest) =
      if close.isPrefixOf (c :: rest) then some ([], (c :: rest).drop close.length)
      else
        match findClose close rest with
        | none => none
        | some (p, r) => some (c :: p, r) := rfl

lemma findClose_of_isPre (close s : List Char) (hne : close ≠ []) (h : close <+: s) :
    findClose close s = some ([], s.drop close.length) := by
  cases s with
  | nil =>
    exact absurd (List.prefix_nil.mp h) hne
  | cons c rest =>
    rw [findClose_cons, if_pos ((isPre_iff _ _).mpr h)]

lemma findClose_none_of_short (close : List Char) :
    ∀ s : List Char, s.length < close.length → findClose close s = none := by
  intro s
  induction s with
  | nil =>
    intro h
    have hne : close ≠ [] := by
      intro hc; rw [hc] at h; exact Nat.not_lt_zero _ h
    exact findClose_nil_of_ne close hne
  | cons c rest ih =>
    intro h
    have hnp : close.isPrefixOf (c :: rest) = false := by
      by_contra hb
      have hpre : close <+: c :: rest :=
        (isPre_iff _ _).mp (by revert hb; cases close.isPrefixOf (c :: rest) <;> simp)
      exact absurd hpre.length_le (Nat.not_le_of_lt h)
    rw [findClose_cons, hnp]
    simp only [Bool.false_eq_true, if_false]
    rw [ih (Nat.lt_of_le_of_lt (Nat.le_succ rest.length) h)]

/-- The crucial non-confusion fact: when `content` does not contain the
closing tag and `u` agrees with the closing tag on their common prefix
(`u` is a prefix of it, or it is a prefix of `u`), the closing tag cannot
start strictly inside `content ++ u`'s first block. -/
lemma closeTag_not_pre_append (t : CType) (content u : List Char)
    (hinf : ¬ closeTag t <:+: content) (hne : content ≠ [])
    (hu : u <+: closeTag t ∨ closeTag t <+: u) :
    ¬ closeTag t <+: (content ++ u) := by
  intro h
  rcases Nat.lt_or_ge content.length 6 with hk | hk
  · -- the closing tag would straddle into u, forcing a border
    have hkpos : 0 < content.length := List.length_pos.mpr hne
    have hconpre : content <+: closeTag t := by
      refine List.prefix_of_prefix_length_le (List.prefix_append content u) h ?_
      rw [closeTag_length]; exact Nat.le_of_lt hk
    have hdecomp : content ++ (closeTag t).drop content.length = closeTag t :=
      List.prefix_iff_eq_append.mp hconpre
    -- from h : closeTag <+: content ++ u, peel off content
    have hdroppre : (closeTag t).drop content.length <+: u := by
      obtain ⟨w, hw⟩ := h
      rw [← hdecomp, List.append_assoc] at hw
      have hw2 : (closeTag t).drop content.length ++ w = u :=
        List.append_cancel_left hw
      exact ⟨w, hw2⟩
    have hdroplen : ((closeTag t).drop content.length).length = 6 - content.length := by
      rw [List.length_drop, closeTag_length]
    have hdroppreclose : (closeTag t).drop content.length <+: closeTag t := by
      rcases hu with hu1 | hu2
      · exact hdroppre.trans hu1
      · refine List.prefix_of_prefix_length_le hdroppre hu2 ?_
        rw [hdroplen, closeTag_length]
        exact Nat.sub_le 6 content.length
    have hborder : (closeTag t).drop content.length = (closeTag t).take (6 - content.length) := by
      have := List.prefix_iff_eq_take.mp hdroppreclose
      rw [hdroplen] at this
      exact this
    exact closeTag_no_border t content.length hkpos hk hborder
  · -- the closing tag would sit entirely inside content
    have hclosepre : closeTag t <+: content := by
      refine List.prefix_of_prefix_length_le h (List.prefix_append content u) ?_
      rw [closeTag_length]; exact hk
    exact hinf hclosepre.isInfix

/-- When the content is free of the closing tag, the lazy search finds the
closing tag exactly at the content boundary. -/
lemma findClose_exact (t : CType) (s : List Char) :
    ∀ content : List Char, ¬ closeTag t <:+: content →
      findClose (closeTag t) (content ++ closeTag t ++ s) = some (content, s) := by
  intro content
  induction content with
  | nil =>
    intro _
    rw [List.nil_append]
    rw [findClose_of_isPre (closeTag t) (closeTag t ++ s) (closeTag_ne_nil t)
      (List.prefix_append _ _)]
    rw [List.drop_left]
  | cons c cs ih =>
    intro hinf
    have hnotpre : ¬ closeTag t <+: ((c :: cs) ++ (closeTag t ++ s)) :=
      closeTag_not_pre_append t (c :: cs) (closeTag t ++ s) hinf (List.cons_ne_nil c cs)
        (Or.inr (List.prefix_append _ _))
    have hb : (closeTag t).isPrefixOf (c :: (cs ++ closeTag t ++ s)) = false := by
      by_contra hb
      have : (closeTag t).isPrefixOf (c :: (cs ++ closeTag t ++ s)) = true := by
        revert hb; cases (closeTag t).isPrefixOf (c :: (cs ++ closeTag t ++ s)) <;> simp
      have := (isPre_iff _ _).mp this
      rw [show c :: (cs ++ closeTag t ++ s) = (c :: cs) ++ (closeTag t ++ s) by simp] at this
      exact hnotpre this
    have hcsinf : ¬ closeTag t <:+: cs := fun hc => hinf (List.infix_cons hc)
    show findClose (closeTag t) (c :: (cs ++ closeTag t ++ s)) = some (c :: cs, s)
    rw [findClose_cons, hb]
    simp only [Bool.false_eq_true, if_false]
    rw [ih hcsinf]

/-- When the buffer holds only the content (closing-tag free) followed by a
proper prefix of the closing tag, the search finds nothing. -/
lemma findClose_stuck (t : CType) :
    ∀ content q : List Char, ¬ closeTag t <:+: content →
      q <+: closeTag t → q ≠ closeTag t →
      findClose (closeTag t) (content ++ q) = none := by
  intro content
  induction content with
  | nil =>
    intro q _ hq hqne
    rw [List.nil_append]
    refine findClose_none_of_short (closeTag t) q ?_
    rcases Nat.lt_or_ge q.length (closeTag t).length with h | h
    · exact h
    · exact absurd (hq.eq_of_length (Nat.le_antisymm hq.length_le h)) hqne
  | cons c cs ih =>
    intro q hinf hq hqne
    have hnotpre : ¬ closeTag t <+: ((c :: cs) ++ q) :=
      closeTag_not_pre_append t (c :: cs) q hinf (List.cons_ne_nil c cs) (Or.inl hq)
    have hb : (closeTag t).isPrefixOf (c :: (cs ++ q)) = false := by
      by_contra hb
      have : (closeTag t).isPrefixOf (c :: (cs ++ q)) = true := by
        revert hb; cases (closeTag t).isPrefixOf (c :: (cs ++ q)) <;> simp
      exact hnotpre (by simpa using (isPre_iff _ _).mp this)
    have hcsinf : ¬ closeTag t <:+: cs := fun hc => hinf (List.infix_cons hc)
    show findClose (closeTag t) (c :: (cs ++ q)) = none
    rw [findClose_cons, hb]
    simp only [Bool.false_eq_true, if_false]
    rw [ih q hcsinf hq hqne]

/-- Decomposition: a successful search splits the string at the closing tag. -/
lemma findClose_some_split (close : List Char) :
    ∀ s p r : List Char, findClose close s = some (p, r) → s = p ++ close ++ r := by
  intro s
  induction s with
  | nil =>
    intro p r h
    by_cases hc : close.isPrefixOf ([] : List Char)
    · have hc2 : close = [] := by simpa using (isPre_iff _ _).mp hc
      rw [findClose, if_pos hc] at h
      simp only [Option.some.injEq, Prod.mk.injEq] at h
      obtain ⟨h1, h2⟩ := h
      subst h1; subst h2
      simp [hc2]
    · rw [findClose, if_neg hc] at h
      exact absurd h (by simp)
  | cons c rest ih =>
    intro p r h
    rw [findClose_cons] at h
    by_cases hc : close.isPrefixOf (c :: rest)
    · rw [if_pos hc] at h
      have hpre : close <+: c :: rest := (isPre_iff _ _).mp hc
      have heq : close ++ (c :: rest).drop close.length = c :: rest :=
        List.prefix_iff_eq_append.mp hpre
      simp only [Option.some.injEq, Prod.mk.injEq] at h
      obtain ⟨h1, h2⟩ := h
      subst h1; subst h2
      rw [List.nil_append]
      exact heq.symm
    · rw [if_neg hc] at h
      cases hrec : findClose close rest with
      | none => rw [hrec] at h; exact absurd h (by simp)
      | some pr =>
        obtain ⟨p1, r1⟩ := pr
        rw [hrec] at h
        have hsplit := ih p1 r1 hrec
        simp only [Option.some.injEq, Prod.mk.injEq] at h
        obtain ⟨h1, h2⟩ := h
        subst h1; subst h2
        rw [hsplit]
        simp

-- ### matchFrame on clean streams

lemma encodeFrame_assoc (c : ExecChunk) (s : List Char) :
    encodeFrame c ++ s = openTag c.type ++ (c.content ++ closeTag c.type ++ s) := by
  simp [encodeFrame]

lemma encodeFrame_ne_nil (c : ExecChunk) : encodeFrame c ≠ [] := by
  rw [encodeFrame]
  cases c.type <;> simp [openTag, tagChars]

lemma openTag_pre_enc {t : CType} {c : ExecChunk} {s : List Char}
    (h : openTag t <+: encodeFrame c ++ s) : t = c.type := by
  have h2 : openTag c.type <+: encodeFrame c ++ s := by
    rw [encodeFrame_assoc]; exact List.prefix_append _ _
  have h3 : openTag t <+: openTag c.type :=
    List.prefix_of_prefix_length_le h h2 (by rw [openTag_length, openTag_length])
  exact openTag_inj (h3.eq_of_length (by rw [openTag_length, openTag_length]))

lemma tryTag_encode (c : ExecChunk) (s : List Char)
    (h : ¬ closeTag c.type <:+: c.content) :
    tryTag c.type (encodeFrame c ++ s) = some (c, s) := by
  rw [tryTag, encodeFrame_assoc]
  rw [if_pos ((isPre_iff _ _).mpr (List.prefix_append _ _))]
  rw [List.drop_left]
  rw [findClose_exact c.type s c.content h]

lemma tryTag_encode_ne (t : CType) (c : ExecChunk) (s : List Char) (hne : t ≠ c.type) :
    tryTag t (encodeFrame c ++ s) = none := by
  rw [tryTag]
  have : (openTag t).isPrefixOf (encodeFrame c ++ s) = false := by
    by_contra hb
    have hb2 : (openTag t).isPrefixOf (encodeFrame c ++ s) = true := by
      revert hb; cases (openTag t).isPrefixOf (encodeFrame c ++ s) <;> simp
    exact hne (openTag_pre_enc ((isPre_iff _ _).mp hb2))
  rw [this]
  simp

lemma matchFrame_encode (c : ExecChunk) (s : List Char)
    (h : ¬ closeTag c.type <:+: c.content) :
    matchFrame (encodeFrame c ++ s) = some (c, s) := by
  rw [matchFrame]
  cases ht : c.type with
  | txt =>
    rw [show tryTag CType.txt (encodeFrame c ++ s) = some (c, s) by
      rw [← ht]; exact tryTag_encode c s h]
  | img =>
    rw [tryTag_encode_ne CType.txt c s (by rw [ht]; decide)]
    rw [show tryTag CType.img (encodeFrame c ++ s) = some (c, s) by
      rw [← ht]; exact tryTag_encode c s h]
  | err =>
    rw [tryTag_encode_ne CType.txt c s (by rw [ht]; decide)]
    rw [tryTag_encode_ne CType.img c s (by rw [ht]; decide)]
    rw [show tryTag CType.err (encodeFrame c ++ s) = some (c, s) by
      rw [← ht]; exact tryTag_encode c s h]

lemma matchFrame_nil : matchFrame [] = none := rfl

/-- On a strict prefix of one clean frame no alternation branch matches. -/
lemma tryTag_strict_none (c : ExecChunk) (p : List Char) (t : CType)
    (hp : p <+: encodeFrame c) (hne : p ≠ encodeFrame c)
    (hcl : ¬ closeTag c.type <:+: c.content) :
    tryTag t p = none := by
  rw [tryTag]
  by_cases hpre : (openTag t).isPrefixOf p
  · rw [if_pos hpre]
    have hpre2 : openTag t <+: p := (isPre_iff _ _).mp hpre
    have ht : t = c.type := by
      have : openTag t <+: encodeFrame c ++ [] := by
        rw [List.append_nil]; exact hpre2.trans hp
      exact openTag_pre_enc this
    subst ht
    obtain ⟨v, hv⟩ := hp
    have hvne : v ≠ [] := by
      intro h0
      rw [h0, List.append_nil] at hv
      exact hne hv
    -- p = openTag ++ w where w is the dropped part
    have hpw : openTag c.type ++ p.drop (openTag c.type).length = p :=
      List.prefix_iff_eq_append.mp hpre2
    set w := p.drop (openTag c.type).length with hwdef
    have hw : w ++ v = c.content ++ closeTag c.type := by
      have henc : encodeFrame c = openTag c.type ++ (c.content ++ closeTag c.type) := by
        simp [encodeFrame]
      rw [← hpw, henc, List.append_assoc] at hv
      exact List.append_cancel_left hv
    suffices hfc : findClose (closeTag c.type) w = none by rw [hfc]
    rcases le_or_lt w.length c.content.length with hlen | hlen
    · have hwc : w <+: c.content :=
        List.prefix_of_prefix_length_le ⟨v, hw⟩ (List.prefix_append _ _) hlen
      have hwinf : ¬ closeTag c.type <:+: w := fun hin => hcl (hin.trans hwc.isInfix)
      have := findClose_stuck c.type w [] hwinf ⟨closeTag c.type, rfl⟩
        (Ne.symm (closeTag_ne_nil c.type))
      simpa using this
    · have hcw : c.content <+: w :=
        List.prefix_of_prefix_length_le (List.prefix_append _ _) ⟨v, hw⟩
          (Nat.le_of_lt hlen)
      have hcq : c.content ++ w.drop c.content.length = w :=
        List.prefix_iff_eq_append.mp hcw
      set q := w.drop c.content.length with hqdef
      have hqv : q ++ v = closeTag c.type := by
        rw [← hcq, List.append_assoc] at hw
        exact List.append_cancel_left hw
      have hqpre : q <+: closeTag c.type := ⟨v, hqv⟩
      have hqne : q ≠ closeTag c.type := by
        intro h0
        apply hvne
        have hlen2 : q.length + v.length = (closeTag c.type).length := by
          have := congrArg List.length hqv
          simpa using this
        rw [h0] at hlen2
        have hv0 : v.length = 0 := by omega
        exact List.length_eq_zero.mp hv0
      rw [← hcq]
      exact findClose_stuck c.type c.content q hcl hqpre hqne
  · rw [if_neg hpre]

lemma matchFrame_strict_none (c : ExecChunk) (p : List Char)
    (hp : p <+: encodeFrame c) (hne : p ≠ encodeFrame c)
    (hcl : ¬ closeTag c.type <:+: c.content) :
    matchFrame p = none := by
  rw [matchFrame]
  rw [tryTag_strict_none c p CType.txt hp hne hcl]
  rw [tryTag_strict_none c p CType.img hp hne hcl]
  rw [tryTag_strict_none c p CType.err hp hne hcl]

-- ### Draining a prefix of a clean encoded stream

lemma encodeStream_nil : encodeStream [] = [] := rfl

lemma encodeStream_cons (c : ExecChunk) (cs : List ExecChunk) :
    encodeStream (c :: cs) = encodeFrame c ++ encodeStream cs := by
  simp [encodeStream]

lemma encodeStream_append (l1 l2 : List ExecChunk) :
    encodeStream (l1 ++ l2) = encodeStream l1 ++ encodeStream l2 := by
  simp [encodeStream]

lemma encodeStream_nil_of (cs : List ExecChunk) (h : encodeStream cs = []) : cs = [] := by
  cases cs with
  | nil => rfl
  | cons c cs' =>
    rw [encodeStream_cons] at h
    exact absurd (List.append_eq_nil.mp h).1 (encodeFrame_ne_nil c)

lemma drainFuel_of_none {p : List Char} (h : matchFrame p = none) :
    ∀ fuel, drainFuel fuel p = ([], p) := by
  intro fuel
  cases fuel with
  | zero => rfl
  | succ f => simp [drainFuel, h]

lemma pre_append_cases {p a b : List Char} (h : p <+: a ++ b) :
    p <+: a ∨ ∃ q, p = a ++ q ∧ q <+: b := by
  rcases le_or_lt p.length a.length with hle | hlt
  · exact Or.inl (List.prefix_of_prefix_length_le h (List.prefix_append a b) hle)
  · right
    have hap : a <+: p :=
      List.prefix_of_prefix_length_le (List.prefix_append a b) h (Nat.le_of_lt hlt)
    have hdec : a ++ p.drop a.length = p := List.prefix_iff_eq_append.mp hap
    refine ⟨p.drop a.length, hdec.symm, ?_⟩
    obtain ⟨w, hw⟩ := h
    rw [← hdec, List.append_assoc] at hw
    exact ⟨w, List.append_cancel_left hw⟩

/-- Draining any prefix of a clean encoded stream pops exactly the complete
frames it contains and leaves a residual strict prefix of the next frame. -/
lemma drainFuel_on_pre :
    ∀ (cs : List ExecChunk) (fuel : Nat) (p : List Char),
      (∀ c ∈ cs, cleanChunk c) → p <+: encodeStream cs → p.length ≤ fuel →
      ∃ cs1 cs2 b, cs = cs1 ++ cs2 ∧ p = encodeStream cs1 ++ b ∧
        drainFuel fuel p = (cs1, b) ∧ residualBuf b cs2 := by
  intro cs
  induction cs with
  | nil =>
    intro fuel p _ hp _
    have hp0 : p = [] := List.prefix_nil.mp hp
    refine ⟨[], [], [], rfl, by simp [hp0, encodeStream_nil], ?_, Or.inl rfl⟩
    rw [hp0]
    exact drainFuel_of_none matchFrame_nil fuel
  | cons c cs' ih =>
    intro fuel p hclean hp hfuel
    have hcleanc : ¬ closeTag c.type <:+: c.content := (hclean c (by simp) c.type).2
    rw [encodeStream_cons] at hp
    rcases pre_append_cases hp with hcase | ⟨q, hpq, hq⟩
    · by_cases heq : p = encodeFrame c
      · have hppos : 0 < p.length := by
          rw [heq]
          exact List.length_pos.mpr (encodeFrame_ne_nil c)
        obtain ⟨f, rfl⟩ : ∃ f, fuel = f + 1 := ⟨fuel - 1, by omega⟩
        have hm : matchFrame p = some (c, []) := by
          rw [heq, show encodeFrame c = encodeFrame c ++ [] by simp]
          exact matchFrame_encode c [] hcleanc
        refine ⟨[c], cs', [], rfl, ?_, ?_, Or.inl rfl⟩
        · rw [heq, encodeStream_cons, encodeStream_nil]
          simp
        · show drainFuel (f + 1) p = ([c], [])
          simp [drainFuel, hm, drainFuel_of_none matchFrame_nil f]
      · have hm : matchFrame p = none := matchFrame_strict_none c p hcase heq hcleanc
        exact ⟨[], c :: cs', p, rfl, by simp [encodeStream_nil],
          drainFuel_of_none hm fuel, Or.inr ⟨c, cs', rfl, hcase, heq⟩⟩
    · have hm : matchFrame p = some (c, q) := by
        rw [hpq]
        exact matchFrame_encode c q hcleanc
      have hlenc : 0 < (encodeFrame c).length :=
        List.length_pos.mpr (encodeFrame_ne_nil c)
      have hlenp : p.length = (encodeFrame c).length + q.length := by
        rw [hpq]; simp
      obtain ⟨f, rfl⟩ : ∃ f, fuel = f + 1 := ⟨fuel - 1, by omega⟩
      have hqfuel : q.length ≤ f := by omega
      obtain ⟨cs1, cs2, b, hcs, hqb, hdrain, hres⟩ :=
        ih f q (fun x hx => hclean x (by simp [hx])) hq hqfuel
      refine ⟨c :: cs1, cs2, b, by rw [hcs]; rfl, ?_, ?_, hres⟩
      · rw [hpq, hqb, encodeStream_cons, List.append_assoc]
      · show drainFuel (f + 1) p = (c :: cs1, b)
        simp [drainFuel, hm, hdrain]

/-- Invariant of the decoder fold: a residual buffer plus the remaining
pieces that jointly hold the encoding of the remaining chunks decode to
exactly those chunks. -/
lemma foldl_feed_spec :
    ∀ (pieces : List (List Char)) (done : List ExecChunk) (b : List Char)
      (cs2 : List ExecChunk),
      (∀ c ∈ cs2, cleanChunk c) → b ++ pieces.flatten = encodeStream cs2 →
      residualBuf b cs2 →
      (pieces.foldl feedPiece (done, b)).1 = done ++ cs2 := by
  intro pieces
  induction pieces with
  | nil =>
    intro done b cs2 _ hjoin hres
    simp only [List.flatten_nil, List.append_nil] at hjoin
    rcases hres with hb | ⟨c, cs2', hcs, hpre, hne⟩
    · rw [hb] at hjoin
      have h0 : cs2 = [] := encodeStream_nil_of cs2 hjoin.symm
      simp [h0]
    · exfalso
      rw [hcs, encodeStream_cons] at hjoin
      have hfp : encodeFrame c <+: b := ⟨encodeStream cs2', hjoin.symm⟩
      have h1 : b.length ≤ (encodeFrame c).length := hpre.length_le
      have h2 : (encodeFrame c).length ≤ b.length := hfp.length_le
      exact hne (hpre.eq_of_length (by omega))
  | cons piece rest ih =>
    intro done b cs2 hclean hjoin hres
    have hjoin2 : (b ++ piece) ++ rest.flatten = encodeStream cs2 := by
      rw [List.append_assoc]
      simpa [List.flatten_cons] using hjoin
    have hpre : (b ++ piece) <+: encodeStream cs2 := ⟨rest.flatten, hjoin2⟩
    obtain ⟨cs1, cs2', b', hcs, hbb, hdrain, hres'⟩ :=
      drainFuel_on_pre cs2 (b ++ piece).length (b ++ piece) hclean hpre (le_refl _)
    have hfeed : feedPiece (done, b) piece = (done ++ cs1, b') := by
      show (done ++ (drainBuffer (b ++ piece)).1, (drainBuffer (b ++ piece)).2) =
        (done ++ cs1, b')
      rw [drainBuffer, hdrain]
    rw [List.foldl_cons, hfeed]
    have hcleansub : ∀ c ∈ cs2', cleanChunk c := fun c hc =>
      hclean c (by rw [hcs]; exact List.mem_append.mpr (Or.inr hc))
    have hjoin3 : b' ++ rest.flatten = encodeStream cs2' := by
      rw [hcs, encodeStream_append] at hjoin2
      rw [hbb, List.append_assoc] at hjoin2
      exact List.append_cancel_left hjoin2
    rw [ih (done ++ cs1) b' cs2' hcleansub hjoin3 hres']
    rw [hcs, List.append_assoc]

/-- C1: for every finite sequence of ExecChunks whose contents contain none of
the frame tags `<txt>`, `<img>`, `<err>` or their closing forms, encoding each
chunk as `<type>content</type>`, concatenating the frames, splitting the
result into arbitrary pieces and feeding the pieces to the buffered regex
decoder yields exactly the original chunk sequence, in order, regardless of
the split. -/
theorem frame_codec_roundtrip (cs : List ExecChunk) (pieces : List (List Char))
    (hclean : ∀ c ∈ cs, cleanChunk c) (hsplit : pieces.flatten = encodeStream cs) :
    decodeStream pieces = cs := by
  have h := foldl_feed_spec pieces [] [] cs hclean (by simpa using hsplit) (Or.inl rfl)
  simpa [decodeStream] using h

/-- Witness for C1 at a concrete clean stream and a split that cuts frames in
the middle of their tags. -/
theorem frame_codec_roundtrip_witness :
    decodeStream ["<tx".toList, "t>hi</txt><i".toList, "mg>A</img><err>x!</err>".toList] =
      [⟨CType.txt, "hi".toList⟩, ⟨CType.img, "A".toList⟩, ⟨CType.err, "x!".toList⟩] :=
  frame_codec_roundtrip _ _ (by decide) (by decide)

-- ### C6: the ExecResult length law

/-- C6: for every list of ExecChunks, the ExecResult built from it satisfies
that the length of `.text` plus the summed lengths of `.images` plus the
summed lengths of `.errors` equals the sum of all chunk content lengths:
every chunk is counted in exactly one of the three order-preserving views. -/
theorem exec_result_length_law (r : ExecResult) :
    r.text.length + (r.images.map List.length).sum + (r.errors.map List.length).sum =
      (r.chunks.map (fun c => c.content.length)).sum := by
  obtain ⟨chunks⟩ := r
  induction chunks with
  | nil => rfl
  | cons c cs ih =>
    cases hc : c.type <;>
      simp_all [ExecResult.text, ExecResult.images, ExecResult.errors,
        List.filter_cons, hc] <;>
      omega

-- ### C9: healthcheck

lemma hasInfix_iff (s p : List Char) : hasInfix s p = true ↔ p <:+: s := by
  induction s with
  | nil =>
    simp [hasInfix, List.isEmpty_iff, List.infix_nil]
  | cons c rest ih =>
    simp only [hasInfix, Bool.or_eq_true, ih, isPre_iff, List.infix_cons_iff]

/-- C9: healthcheck returns "healthy" iff "ok" occurs in the text view of the
result of `exec("echo ok", kernel="bash")`, and its value is always one of
exactly the two strings "healthy" and "error". -/
theorem healthcheck_spec (r : ExecResult) :
    (ahealthcheck r = "healthy".toList ↔ "ok".toList <:+: r.text) ∧
      (ahealthcheck r = "healthy".toList ∨ ahealthcheck r = "error".toList) := by
  by_cases h : hasInfix r.text "ok".toList = true
  · refine ⟨⟨fun _ => (hasInfix_iff _ _).mp h, fun _ => ?_⟩, Or.inl ?_⟩ <;>
      rw [ahealthcheck, if_pos h]
  · have hni : ¬ "ok".toList <:+: r.text := fun hc => h ((hasInfix_iff _ _).mpr hc)
    refine ⟨⟨fun he => ?_, fun hc => absurd hc hni⟩, Or.inr ?_⟩
    · rw [ahealthcheck, if_neg h] at he
      exact absurd he (by decide)
    · rw [ahealthcheck, if_neg h]

-- ### C2: upload / stream_download round trip

lemma chunksFuel_nil (f : Nat) : chunksFuel f [] = [] := by
  cases f <;> rfl

lemma chunksFuel_flatten : ∀ (f : Nat) (b : List Nat), b.length ≤ f →
    (chunksFuel f b).flatten = b := by
  intro f
  induction f with
  | zero =>
    intro b h
    have hb : b = [] := List.length_eq_zero.mp (Nat.le_zero.mp h)
    simp [hb, chunksFuel]
  | succ f ih =>
    intro b h
    by_cases hb : b.isEmpty
    · have hb0 : b = [] := List.isEmpty_iff.mp hb
      simp [hb0, chunksFuel]
    · have hbne : b ≠ [] := fun h0 => hb (by simp [h0])
      have hlen : 0 < b.length := List.length_pos.mpr hbne
      rw [chunksFuel, if_neg (by simp [hb])]
      rw [List.flatten_cons]
      rw [ih (b.drop 8192) (by simp; omega)]
      exact List.take_append_drop 8192 b

lemma chunksFuel_ne_nil (f : Nat) (b : List Nat) (hb : b ≠ []) (hf : 0 < f) :
    chunksFuel f b ≠ [] := by
  obtain ⟨f', rfl⟩ : ∃ f', f = f' + 1 := ⟨f - 1, by omega⟩
  rw [chunksFuel, if_neg (by simp [hb])]
  exact List.cons_ne_nil _ _

lemma chunksFuel_dropLast : ∀ (f : Nat) (b : List Nat), b.length ≤ f →
    ∀ ch ∈ (chunksFuel f b).dropLast, ch.length = 8192 := by
  intro f
  induction f with
  | zero =>
    intro b h ch hch
    have hb : b = [] := List.length_eq_zero.mp (Nat.le_zero.mp h)
    rw [hb] at hch
    simp [chunksFuel] at hch
  | succ f ih =>
    intro b h ch hch
    by_cases hb : b.isEmpty
    · have hb0 : b = [] := List.isEmpty_iff.mp hb
      rw [hb0] at hch
      simp [chunksFuel] at hch
    · have hbne : b ≠ [] := fun h0 => hb (by simp [h0])
      rw [chunksFuel, if_neg (by simp [hb])] at hch
      by_cases hdrop : b.drop 8192 = []
      · rw [hdrop, chunksFuel_nil] at hch
        simp at hch
      · have hlong : 8192 < b.length := by
          by_contra hcon
          exact hdrop (List.drop_eq_nil_of_le (by omega))
        have hfpos : 0 < f := by
          have : (b.drop 8192).length ≤ f := by simp; omega
          have hdlen : 0 < (b.drop 8192).length := List.length_pos.mpr hdrop
          omega
        have hLne : chunksFuel f (b.drop 8192) ≠ [] :=
          chunksFuel_ne_nil f (b.drop 8192) hdrop hfpos
        have hdl : (b.take 8192 :: chunksFuel f (b.drop 8192)).dropLast =
            b.take 8192 :: (chunksFuel f (b.drop 8192)).dropLast := by
          cases hL : chunksFuel f (b.drop 8192) with
          | nil => exact absurd hL hLne
          | cons a as => rfl
        rw [hdl] at hch
        rcases List.mem_cons.mp hch with h1 | h1
        · rw [h1]
          simp [List.length_take, Nat.min_eq_left (Nat.le_of_lt hlong)]
        · exact ih (b.drop 8192) (by simp; omega) ch h1

/-- C2: after `upload(name, b)` on a local session, `stream_download(name)`
succeeds and yields chunks that concatenate byte-for-byte to `b`
(hence `RemoteFile.get_content()` returns `b`), and every chunk except
possibly the last has length 8192. -/
theorem upload_download_roundtrip (fs : FileSystem) (cwd name : List Char)
    (b : List Nat) (hname : '/' ∉ name) :
    stream_download (upload fs cwd name b).1 cwd name = Except.ok (chunks8192 b) ∧
      (chunks8192 b).flatten = b ∧
      ∀ ch ∈ (chunks8192 b).dropLast, ch.length = 8192 := by
  refine ⟨?_, ?_, ?_⟩
  · have hr : fsRead (upload fs cwd name b).1 (osPathJoin cwd name) = some b := by
      simp [upload, fsWrite, fsRead]
    rw [stream_download, hr]
  · exact chunksFuel_flatten b.length b (le_refl _)
  · exact chunksFuel_dropLast b.length b (le_refl _)

/-- Witness for C2 at a concrete upload. -/
theorem upload_download_roundtrip_witness :
    stream_download (upload [] "/box".toList "t.txt".toList [10, 20, 30]).1
        "/box".toList "t.txt".toList = Except.ok (chunks8192 [10, 20, 30]) ∧
      (chunks8192 [10, 20, 30]).flatten = [10, 20, 30] ∧
      ∀ ch ∈ (chunks8192 [10, 20, 30]).dropLast, ch.length = 8192 :=
  upload_download_roundtrip [] "/box".toList "t.txt".toList [10, 20, 30] (by decide)

-- ### C7: download of a missing file

/-- C7 counterexample: `adownload` of a name matching no listed file fails
with IndexError (the `[0]` on an empty list), not with FileNotFound. -/
theorem download_missing_counterexample :
    adownload [] "missing.txt".toList = Except.error PyErr.indexError ∧
      PyErr.indexError ≠ PyErr.fileNotFoundError :=
  ⟨rfl, by decide⟩

/-- C7 amended: for a missing file the streaming form fails with
FileNotFoundError, while the collecting form `adownload` fails with
IndexError whenever no listed file path matches the requested name. -/
theorem download_missing_errors (fs : FileSystem) (cwd name : List Char)
    (hmiss : fsRead fs (osPathJoin cwd name) = none)
    (files : List RemoteFile)
    (hmatch : files.filter (fun f => hasInfix name f.path) = []) :
    stream_download fs cwd name = Except.error PyErr.fileNotFoundError ∧
      adownload files name = Except.error PyErr.indexError := by
  constructor
  · rw [stream_download, hmiss]
  · rw [adownload, hmatch]

/-- Witness for C7 (amended) on an empty session. -/
theorem download_missing_errors_witness :
    stream_download [] "/box".toList "absent.txt".toList =
        Except.error PyErr.fileNotFoundError ∧
      adownload [] "absent.txt".toList = Except.error PyErr.indexError :=
  download_missing_errors [] "/box".toList "absent.txt".toList rfl [] rfl

-- ### C8: the path field of the returned RemoteFile

/-- C8 counterexample: the async `aupload` returns a RemoteFile whose path is
the absolute joined path (cwd prefix included), not the passed name. -/
theorem aupload_path_counterexample :
    (aupload [] "/box".toList "t.txt".toList [1]).2.path = "/box/t.txt".toList ∧
      (aupload [] "/box".toList "t.txt".toList [1]).2.path ≠ "t.txt".toList ∧
      "/box".toList <+: (aupload [] "/box".toList "t.txt".toList [1]).2.path := by
  refine ⟨by decide, by decide, by decide⟩

/-- C8 amended: the sync `upload` returns the passed name as the path, while
the async `aupload` returns `os.path.join(cwd, name)`. -/
theorem upload_path_fields (fs : FileSystem) (cwd name : List Char)
    (content : List Nat) :
    (upload fs cwd name content).2.path = name ∧
      (aupload fs cwd name content).2.path = osPathJoin cwd name :=
  ⟨rfl, rfl⟩

-- ### C3: upload does not confine writes to the session cwd

/-- C3: evaluation of the code at the failing input: `upload` with name
`../escape.txt` is not rejected - it writes the content at
`/box/../escape.txt`, whose resolution `/escape.txt` is outside the cwd. -/
theorem upload_escapes_cwd :
    fsRead (upload [] "/box".toList "../escape.txt".toList [7]).1
        (osPathJoin "/box".toList "../escape.txt".toList) = some [7] ∧
      ¬ underCwd "/box".toList (osPathJoin "/box".toList "../escape.txt".toList) := by
  refine ⟨by decide, by decide⟩

-- ### C4: LocalBox is a singleton that raises on re-construction

/-- C4 counterexample: with an instance registered, a second construction
does not return the existing instance - it raises RuntimeError. -/
theorem localbox_second_construction_counterexample :
    localBoxNew (some 0) 1 = Except.error localBoxErrMsg ∧
      (localBoxNew (some 0) 1).isOk = false :=
  ⟨rfl, rfl⟩

/-- C4 amended: the first construction creates and registers the instance;
any later construction in the same process raises RuntimeError with the
"Only one LocalBox instance can exist at a time" message instead of
returning the existing instance. -/
theorem localbox_singleton_guard (inst : Option Nat) (fresh : Nat) :
    (inst = none → localBoxNew inst fresh = Except.ok (fresh, some fresh)) ∧
      (inst ≠ none → localBoxNew inst fresh = Except.error localBoxErrMsg) := by
  constructor
  · intro h
    rw [h]
    rfl
  · intro h
    cases inst with
    | none => exact absurd rfl h
    | some i => rfl

/-- Witness for C4 (amended) at concrete states. -/
theorem localbox_singleton_guard_witness :
    localBoxNew none 5 = Except.ok (5, some 5) ∧
      localBoxNew (some 3) 5 = Except.error localBoxErrMsg :=
  ⟨(localbox_singleton_guard none 5).1 rfl,
    (localbox_singleton_guard (some 3) 5).2 (by decide)⟩

-- ### C5: timeout raises instead of emitting a final err chunk

/-- C5 counterexample: with timeout 1 s and a cell running 2 s, the consumer
receives no chunks and a raised TimeoutError - the stream does not end with
an err chunk reading "Execution timed out". -/
theorem timeout_err_chunk_counterexample :
    stream_exec (some 1) 2 [⟨CType.txt, "a".toList⟩] 0 =
      ([], some (PyErr.timeoutError timeoutMsg)) := by
  decide

/-- C5 amended: whenever a finite nonzero timeout expires before the cell
finishes, `stream_exec` raises `TimeoutError("Execution timed out")` to the
caller after the already-yielded chunks; no terminal err chunk is appended. -/
theorem timeout_raises (t d : Nat) (cell : List ExecChunk) (yielded : Nat)
    (ht : 0 < t) (hd : t < d) :
    stream_exec (some t) d cell yielded =
      (cell.take yielded, some (PyErr.timeoutError timeoutMsg)) := by
  show (if 0 < t ∧ t < d then (cell.take yielded, some (PyErr.timeoutError timeoutMsg))
    else (cell, none)) = _
  rw [if_pos ⟨ht, hd⟩]

/-- Witness for C5 (amended) at a concrete timed-out call. -/
theorem timeout_raises_witness :
    stream_exec (some 1) 3 [⟨CType.txt, "x".toList⟩] 1 =
      ([⟨CType.txt, "x".toList⟩], some (PyErr.timeoutError timeoutMsg)) := by
  have h := timeout_raises 1 3 [⟨CType.txt, "x".toList⟩] 1 (by decide) (by decide)
  simpa using h

-- ### C10: CodeBox._parse_size

